import Mathlib

/-!
Shallow embedding of the signal-shaping and rendering subsystem
(`normalizeArray` and `WavRenderer.drawSpeechVisual`).

Modelling conventions:
* JavaScript numbers are modelled as exact rationals extended with `NaN`;
  array slots may also read as `undefined`, giving the three-valued type
  `JVal`.  All arithmetic appearing in the source (`+`, `-`, `*`, `/`,
  `Math.abs`, `Math.max`, `Math.floor`, `Math.ceil`, `>=`) is defined on
  `JVal` following JavaScript coercion: `undefined` coerces to `NaN` in
  arithmetic, `NaN` propagates, and `NaN >= x` is `false`.
* `x / 0` is modelled as `NaN`.  In JavaScript `x / 0` is `±Infinity` for
  `x ≠ 0`, but every division by zero reachable in `normalizeArray` has a
  zero dividend (`0 / 0`, which is `NaN` in JavaScript as well), so
  infinities never arise and are not modelled.
* A JavaScript array is a `List JVal`; writing past the end extends the
  array (intermediate holes read as `undefined`), as in JavaScript.
* A `Float32Array` is a `List ℚ` (its elements are always numbers);
  indexing it out of range, with a negative index or with `NaN` yields
  `undefined`, as in JavaScript.
* The `WeakMap`-based memoization cache is modelled as explicit state:
  a map from buffer identity and the `(m, downsamplePeaks)` key pair to
  the cached summary array.  Buffer instances carry an identity tag `id`.
* `Date.now()`, `Math.sin`, `Math.cos`, `Math.PI` and the canvas are
  impure inputs of `drawSpeechVisual`; they are modelled as explicit
  parameters (`now` and a `MathEnv` of abstract real functions), and the
  canvas mutations as an emitted trace of `CanvasOp`s.
-/

/-- A JavaScript numeric value as read from an array: a finite number
(exact rational), `NaN`, or `undefined` (absent slot / out-of-range). -/
inductive JVal where
  | num (q : ℚ)
  | nan
  | undefined
deriving DecidableEq

/-- Numeric coercion: `undefined` coerces to `NaN`; `none` means `NaN`. -/
def JVal.coerce : JVal → Option ℚ
  | .num q => some q
  | .nan => none
  | .undefined => none

/-- JavaScript `+` on numbers (after coercion); `NaN` propagates. -/
def jadd (a b : JVal) : JVal :=
  match a.coerce, b.coerce with
  | some x, some y => .num (x + y)
  | _, _ => .nan

/-- JavaScript `-` on numbers (after coercion); `NaN` propagates. -/
def jsub (a b : JVal) : JVal :=
  match a.coerce, b.coerce with
  | some x, some y => .num (x - y)
  | _, _ => .nan

/-- JavaScript `*` on numbers (after coercion); `NaN` propagates. -/
def jmul (a b : JVal) : JVal :=
  match a.coerce, b.coerce with
  | some x, some y => .num (x * y)
  | _, _ => .nan

/-- JavaScript `/` on numbers. Division by zero yields `NaN` (see the
module comment: only `0 / 0` is reachable in this code). -/
def jdiv (a b : JVal) : JVal :=
  match a.coerce, b.coerce with
  | some x, some y => if y = 0 then .nan else .num (x / y)
  | _, _ => .nan

/-- `Math.abs`. -/
def jabs (a : JVal) : JVal :=
  match a.coerce with
  | some x => .num |x|
  | none => .nan

/-- `Math.max` (binary); any `NaN` operand makes the result `NaN`. -/
def jmax (a b : JVal) : JVal :=
  match a.coerce, b.coerce with
  | some x, some y => .num (max x y)
  | _, _ => .nan

/-- `Math.floor`. -/
def jfloor (a : JVal) : JVal :=
  match a.coerce with
  | some x => .num (⌊x⌋ : ℤ)
  | none => .nan

/-- `Math.ceil`. -/
def jceil (a : JVal) : JVal :=
  match a.coerce with
  | some x => .num (⌈x⌉ : ℤ)
  | none => .nan

/-- JavaScript `a >= c` for a numeric right-hand side; `NaN >= c` is
`false`. -/
def jge (a : JVal) (c : ℚ) : Bool :=
  match a.coerce with
  | some x => decide (c ≤ x)
  | none => false

/-- Read `l[i]` from a JavaScript array at a natural index: `undefined`
when out of range. -/
def jsGet (l : List JVal) (i : ℕ) : JVal :=
  (l.get? i).getD .undefined

/-- Write `l[i] = v` on a JavaScript array: writing past the end extends
the array, with intermediate holes reading as `undefined`. -/
def jsSet (l : List JVal) (i : ℕ) (v : JVal) : List JVal :=
  if i < l.length then l.set i v
  else l ++ List.replicate (i - l.length) .undefined ++ [v]

/-- Interpret a JavaScript value as an array index: a non-negative
integer-valued number; anything else is not an element index. -/
def jsIdx (v : JVal) : Option ℕ :=
  match v with
  | .num q => if q.den = 1 ∧ 0 ≤ q.num then some q.num.toNat else none
  | _ => none

/-- Read an array slot through a computed JavaScript index; a `NaN`,
negative or fractional index reads `undefined`. -/
def jsGetV (l : List JVal) (v : JVal) : JVal :=
  match jsIdx v with
  | some i => jsGet l i
  | none => .undefined

/-- Write an array slot through a computed JavaScript index.  A write at
a non-index key stores a non-element property, invisible to `.length`
and element reads, so it is dropped (such writes are unreachable here:
every computed index is a non-negative integer). -/
def jsSetV (l : List JVal) (v : JVal) (x : JVal) : List JVal :=
  match jsIdx v with
  | some i => jsSet l i x
  | none => l

/-- Read `data[v]` from a `Float32Array` through a computed index. -/
def dget (data : List ℚ) (v : JVal) : JVal :=
  match jsIdx v with
  | some i =>
    match data.get? i with
    | some q => .num q
    | none => .undefined
  | none => .undefined

/-- One iteration `i` of the downsampling loop of `normalizeArray`:
`index = Math.floor(i * (m / n))`; peak mode takes
`result[index] = Math.max(result[index], Math.abs(data[i]))`, average
mode accumulates `result[index] += Math.abs(data[i])`; then
`count[index]++`. -/
def dsStep (downsamplePeaks : Bool) (data : List ℚ) (m n i : ℕ)
    (rc : List JVal × List JVal) : List JVal × List JVal :=
  let idx := jfloor (jmul (.num i) (jdiv (.num m) (.num n)))
  let d := dget data (.num i)
  let r :=
    if downsamplePeaks then
      jsSetV rc.1 idx (jmax (jsGetV rc.1 idx) (jabs d))
    else
      jsSetV rc.1 idx (jadd (jsGetV rc.1 idx) (jabs d))
  let c := jsSetV rc.2 idx (jadd (jsGetV rc.2 idx) (.num 1))
  (r, c)

/-- The downsampling loop after `k` iterations, starting from
`result = new Array(m).fill(0)` and `count = new Array(m).fill(0)`. -/
def dsLoop (downsamplePeaks : Bool) (data : List ℚ) (m n : ℕ) :
    ℕ → List JVal × List JVal
  | 0 => (List.replicate m (.num 0), List.replicate m (.num 0))
  | k + 1 => dsStep downsamplePeaks data m n k (dsLoop downsamplePeaks data m n k)

/-- One slot of the upsampling branch of `normalizeArray`:
`index = (i * (n - 1)) / (m - 1)`, `low = Math.floor(index)`,
`high = Math.ceil(index)`, `t = index - low`; clamp to `data[n - 1]`
when `high >= n`, else interpolate
`data[low] * (1 - t) + data[high] * t`. -/
def upsampleVal (data : List ℚ) (n m i : ℕ) : JVal :=
  let index := jdiv (.num ((i : ℚ) * ((n : ℚ) - 1))) (.num ((m : ℚ) - 1))
  let low := jfloor index
  let high := jceil index
  let t := jsub index low
  if jge high n then dget data (.num ((n : ℚ) - 1))
  else jadd (jmul (dget data low) (jsub (.num 1) t)) (jmul (dget data high) t)

/-- The pure computation of `normalizeArray` (the part outside the
memoization block).  The averaging loop
`for (i = 0; i < result.length; i++) result[i] = result[i] / count[i]`
reads each slot before overwriting it and never changes the length, so
it is the map over `List.range result.length` written here. -/
def normalizeCompute (data : List ℚ) (m : ℕ) (downsamplePeaks : Bool) :
    List JVal :=
  let n := data.length
  if m ≤ n then
    let rc := dsLoop downsamplePeaks data m n n
    if downsamplePeaks then rc.1
    else (List.range rc.1.length).map (fun i => jdiv (jsGet rc.1 i) (jsGet rc.2 i))
  else
    (List.range m).map (upsampleVal data n m)

/-- A `Float32Array` instance: contents plus an identity tag (the
`WeakMap` cache is keyed by object identity). -/
structure Buffer where
  id : ℕ
  data : List ℚ

/-- The memoization state: `dataMap`, flattened to a map from buffer
identity and the `(mKey, dKey)` pair to the cached array.  `mKey` and
`dKey` are `m.toString()` and `downsamplePeaks.toString()` in the
source; `toString` is injective on these, so the keys are kept as the
values themselves. -/
def Cache : Type := ℕ → ℕ → Bool → Option (List JVal)

/-- The empty cache (no buffer has an entry). -/
def Cache.empty : Cache := fun _ _ _ => none

/-- Store a computed result under `(buffer id, m, downsamplePeaks)`. -/
def Cache.update (st : Cache) (bid m : ℕ) (pk : Bool) (r : List JVal) : Cache :=
  fun b m2 p2 => if b = bid ∧ m2 = m ∧ p2 = pk then some r else st b m2 p2

/-- `normalizeArray`: with `memoize` set, look up the cache first and
return a hit without recomputation, otherwise compute and store; with
`memoize` unset, just compute.  Returns the summary array and the
updated cache state. -/
def normalizeArray (buf : Buffer) (m : ℕ) (downsamplePeaks memoize : Bool)
    (st : Cache) : List JVal × Cache :=
  if memoize then
    match st buf.id m downsamplePeaks with
    | some r => (r, st)
    | none =>
      let r := normalizeCompute buf.data m downsamplePeaks
      (r, st.update buf.id m downsamplePeaks r)
  else
    (normalizeCompute buf.data m downsamplePeaks, st)

/-- The canvas operations `drawSpeechVisual` performs, as a trace. -/
inductive CanvasOp where
  | clearRect (x y w h : ℚ)
  | beginPath
  | moveTo (x y : ℚ)
  | lineTo (x y : ℚ)
  | closePath
  | setFillStyle (color : String)
  | fill
deriving DecidableEq

/-- The two speaking-state tags accepted by `drawSpeechVisual`. -/
inductive SpeakingState where
  | ai
  | user
deriving DecidableEq

/-- Abstract interpretation of `Math.sin`, `Math.cos` and `Math.PI`
(transcendental; every property proved below holds for an arbitrary
interpretation). -/
structure MathEnv where
  sin : ℚ → ℚ
  cos : ℚ → ℚ
  pi : ℚ

/-- The `numberOfPoints` constant of `drawSpeechVisual`. -/
def numberOfPoints : ℕ := 50

/-- The `squishFactorMax` constant of `drawSpeechVisual`. -/
def squishFactorMax : ℚ := 5

/-- The `squishSpeed` constant of `drawSpeechVisual`. -/
def squishSpeed : ℚ := 200

/-- The `baseRadius` constant of `drawSpeechVisual`. -/
def baseRadius : ℚ := 40

/-- The `moveTo` / `lineTo` calls of the vertex loop of
`drawSpeechVisual`: `numberOfPoints + 1` angular steps; at step `i`,
`angle = (i / numberOfPoints) * π * 2`,
`squishFactor = sin(now / squishSpeed + angle * 3) * squishFactorMax`,
`radius = baseRadius + squishFactor`,
`x = centerX + cos(angle) * radius`, `y = centerY + sin(angle) * radius`;
step 0 is a `moveTo`, later steps are `lineTo`. -/
def vertexOps (env : MathEnv) (now centerX centerY : ℚ) : List CanvasOp :=
  (List.range (numberOfPoints + 1)).map (fun (i : ℕ) =>
    let angle := ((i : ℚ) / (numberOfPoints : ℚ)) * env.pi * 2
    let squishFactor := env.sin (now / squishSpeed + angle * 3) * squishFactorMax
    let radius := baseRadius + squishFactor
    let x := centerX + env.cos angle * radius
    let y := centerY + env.sin angle * radius
    if i = 0 then CanvasOp.moveTo x y else CanvasOp.lineTo x y)

/-- `WavRenderer.drawSpeechVisual`: computes
`points = normalizeArray(data, 10, true)` (the `memoize` argument is
omitted at this call site, so it takes its default `false`), clears the
canvas, and paints one closed filled path of `numberOfPoints + 1`
vertices around the center.  Returns the canvas-operation trace and the
cache state after the call. -/
def drawSpeechVisual (env : MathEnv) (now width height : ℚ) (buf : Buffer)
    (speakingState : SpeakingState) (st : Cache) : List CanvasOp × Cache :=
  let pc := normalizeArray buf 10 true false st
  let centerX := width / 2
  let centerY := height / 2
  let ops :=
    CanvasOp.clearRect 0 0 width height ::
    CanvasOp.beginPath ::
    (vertexOps env now centerX centerY ++
      [CanvasOp.closePath, CanvasOp.setFillStyle "black", CanvasOp.fill])
  (ops, pc.2)

/-- The bucket an input index is mapped to by the downsampling loop:
`Math.floor(i * (m / n))`, which for naturals with `n > 0` is the
natural-number division `i * m / n` (exact arithmetic; see
`bucket_eq_floor`). -/
def bucket (m n i : ℕ) : ℕ := i * m / n

/-- The input indices among the first `k` that fall in bucket `j`. -/
def bucketSetUpTo (m n k j : ℕ) : Finset ℕ :=
  (Finset.range k).filter (fun i => bucket m n i = j)

/-- The input indices (out of all `n`) that fall in bucket `j`. -/
def bucketSet (m n j : ℕ) : Finset ℕ := bucketSetUpTo m n n j

/-- Accumulated absolute-value sum of bucket `j` after the first `k`
loop iterations. -/
def sumUpTo (data : List ℚ) (m n k j : ℕ) : ℚ :=
  ∑ i ∈ bucketSetUpTo m n k j, |data.getD i 0|

/-- Accumulated running maximum (starting from the fill value `0`) of
bucket `j` after the first `k` loop iterations. -/
def peakUpTo (data : List ℚ) (m n k j : ℕ) : ℚ :=
  (bucketSetUpTo m n k j).fold max 0 (fun i => |data.getD i 0|)

/-- Accumulated sample count of bucket `j` after the first `k` loop
iterations. -/
def cntUpTo (m n k j : ℕ) : ℕ := (bucketSetUpTo m n k j).card

/-- A length-`m` JavaScript array of plain numbers given pointwise. -/
def listOf (m : ℕ) (f : ℕ → ℚ) : List JVal :=
  (List.range m).map (fun j => .num (f j))

/-- Whether a canvas operation is a path vertex (`moveTo` or `lineTo`). -/
def isVertexOp : CanvasOp → Bool
  | .moveTo _ _ => true
  | .lineTo _ _ => true
  | _ => false

/-- A concrete interpretation of the math environment, used to
instantiate closed statements about `drawSpeechVisual`. -/
def mathEnv0 : MathEnv := ⟨fun _ => 0, fun _ => 0, 0⟩

theorem jadd_num (x y : ℚ) : jadd (.num x) (.num y) = .num (x + y) := rfl

theorem jsub_num (x y : ℚ) : jsub (.num x) (.num y) = .num (x - y) := rfl

theorem jmul_num (x y : ℚ) : jmul (.num x) (.num y) = .num (x * y) := rfl

theorem jabs_num (x : ℚ) : jabs (.num x) = .num |x| := rfl

theorem jmax_num (x y : ℚ) : jmax (.num x) (.num y) = .num (max x y) := rfl

theorem jfloor_num (x : ℚ) : jfloor (.num x) = .num (⌊x⌋ : ℤ) := rfl

theorem jceil_num (x : ℚ) : jceil (.num x) = .num (⌈x⌉ : ℤ) := rfl

theorem jdiv_num (x y : ℚ) (hy : y ≠ 0) :
    jdiv (.num x) (.num y) = .num (x / y) := by
  simp [jdiv, JVal.coerce, hy]

theorem jge_num (x c : ℚ) : jge (.num x) c = decide (c ≤ x) := rfl

theorem jsIdx_intCast (z : ℤ) (hz : 0 ≤ z) :
    jsIdx (.num (z : ℚ)) = some z.toNat := by
  simp [jsIdx, Rat.num_intCast, Rat.den_intCast, hz]

theorem jsIdx_natCast (a : ℕ) : jsIdx (.num (a : ℚ)) = some a := by
  have h := jsIdx_intCast (a : ℤ) (Int.ofNat_nonneg a)
  rw [Int.cast_natCast] at h
  simpa using h

theorem dget_nat (data : List ℚ) (k : ℕ) (hk : k < data.length) :
    dget data (.num (k : ℚ)) = .num (data.getD k 0) := by
  have h : data[k]? = some (data.get ⟨k, hk⟩) := by
    rw [← List.get?_eq_getElem?, List.get?_eq_get hk]
  have h2 : data.getD k 0 = data.get ⟨k, hk⟩ := List.getD_eq_get _ _ hk
  rw [dget, jsIdx_natCast, h2]
  simp [h]

theorem listOf_length (m : ℕ) (f : ℕ → ℚ) : (listOf m f).length = m := by
  simp [listOf]

theorem listOf_get? (m : ℕ) (f : ℕ → ℚ) {j : ℕ} (hj : j < m) :
    (listOf m f).get? j = some (.num (f j)) := by
  rw [listOf, List.get?_map, List.get?_range hj]
  rfl

theorem listOf_get?_ge (m : ℕ) (f : ℕ → ℚ) {j : ℕ} (hj : m ≤ j) :
    (listOf m f).get? j = none := by
  apply List.get?_eq_none.mpr
  simpa [listOf] using hj

theorem jsGet_listOf (m : ℕ) (f : ℕ → ℚ) {j : ℕ} (hj : j < m) :
    jsGet (listOf m f) j = .num (f j) := by
  rw [jsGet, listOf_get? m f hj]
  rfl

theorem jsSet_listOf (m : ℕ) (f : ℕ → ℚ) {j : ℕ} (hj : j < m) (x : ℚ) :
    jsSet (listOf m f) j (.num x) = listOf m (fun i => if i = j then x else f i) := by
  have hlen : j < (listOf m f).length := by rw [listOf_length]; exact hj
  rw [jsSet, if_pos hlen]
  apply List.ext_get?
  intro i
  rcases lt_or_ge i m with hi | hi
  · rcases eq_or_ne i j with rfl | hne
    · rw [List.get?_set_eq_of_lt _ hlen, listOf_get? m _ hi, if_pos rfl]
    · rw [List.get?_set_ne _ _ (Ne.symm hne), listOf_get? m f hi,
        listOf_get? m _ hi, if_neg hne]
  · have h1 := listOf_get?_ge m f hi
    have h2 := listOf_get?_ge m (fun i => if i = j then x else f i) hi
    rw [h2, List.get?_eq_none.mpr]
    rw [List.length_set, listOf_length]
    exact hi

theorem listOf_congr (m : ℕ) (f g : ℕ → ℚ) (h : ∀ j < m, f j = g j) :
    listOf m f = listOf m g := by
  unfold listOf
  apply List.map_congr_left
  intro j hj
  rw [h j (List.mem_range.mp hj)]

theorem bucket_eq_floor (m n i : ℕ) (hn : 0 < n) :
    (bucket m n i : ℤ) = ⌊(i : ℚ) * ((m : ℚ) / (n : ℚ))⌋ := by
  have hx : (i : ℚ) * ((m : ℚ) / (n : ℚ)) = ((i * m : ℕ) : ℚ) / ((n : ℕ) : ℚ) := by
    push_cast
    ring
  have hnn : (0 : ℚ) ≤ ((i * m : ℕ) : ℚ) / ((n : ℕ) : ℚ) := by positivity
  rw [bucket, hx, ← Int.natCast_floor_eq_floor hnn, Nat.floor_div_eq_div]

theorem idx_eq (m n i : ℕ) (hn : 0 < n) :
    jfloor (jmul (.num (i : ℚ)) (jdiv (.num (m : ℚ)) (.num (n : ℚ)))) =
      .num ((bucket m n i : ℕ) : ℚ) := by
  have hn0 : ((n : ℕ) : ℚ) ≠ 0 := by
    exact_mod_cast Nat.pos_iff_ne_zero.mp hn
  rw [jdiv_num _ _ hn0, jmul_num, jfloor_num, ← bucket_eq_floor m n i hn]
  norm_cast

theorem bucket_lt (m n i : ℕ) (hm : 0 < m) (hi : i < n) :
    bucket m n i < m := by
  rw [bucket]
  have hn : 0 < n := lt_of_le_of_lt (Nat.zero_le i) hi
  rw [Nat.div_lt_iff_lt_mul hn]
  calc i * m < n * m := (Nat.mul_lt_mul_right hm).mpr hi
  _ = m * n := Nat.mul_comm n m

theorem bucket_surj (m n j : ℕ) (hm : 0 < m) (hmn : m ≤ n) (hj : j < m) :
    ∃ i, i < n ∧ bucket m n i = j := by
  have hn : 0 < n := lt_of_lt_of_le hm hmn
  have hmQ : (0 : ℚ) < (m : ℚ) := by exact_mod_cast hm
  set x : ℚ := ((j * n : ℕ) : ℚ) / (m : ℚ) with hx
  have hx0 : 0 ≤ x := by positivity
  refine ⟨⌈x⌉₊, ?_, ?_⟩
  case _ =>
    -- ⌈x⌉₊ < n because x + 1 ≤ (j+1) * n / m + ((m-1)/m) ... direct bound:
    have h1 : (⌈x⌉₊ : ℚ) < x + 1 := Nat.ceil_lt_add_one hx0
    have h2 : x + 1 ≤ (n : ℚ) := by
      rw [hx]
      rw [div_add' _ _ _ (ne_of_gt hmQ), div_le_iff₀ hmQ]
      push_cast
      have hj1 : (j : ℚ) + 1 ≤ (m : ℚ) := by exact_mod_cast hj
      have hmnQ : (m : ℚ) ≤ (n : ℚ) := by exact_mod_cast hmn
      have hnQ : (0 : ℚ) ≤ (n : ℚ) := by positivity
      nlinarith
    have : (⌈x⌉₊ : ℚ) < (n : ℚ) := lt_of_lt_of_le h1 h2
    exact_mod_cast this
  case _ =>
    have hle : (j * n : ℕ) ≤ ⌈x⌉₊ * m := by
      have h1 : x ≤ (⌈x⌉₊ : ℚ) := Nat.le_ceil x
      rw [hx, div_le_iff hmQ] at h1
      exact_mod_cast h1
    have hlt : ⌈x⌉₊ * m < (j + 1) * n := by
      have h1 : (⌈x⌉₊ : ℚ) < x + 1 := Nat.ceil_lt_add_one hx0
      have h2 : (⌈x⌉₊ : ℚ) * (m : ℚ) < ((j * n : ℕ) : ℚ) + (m : ℚ) := by
        calc (⌈x⌉₊ : ℚ) * (m : ℚ) < (x + 1) * (m : ℚ) := by
              exact mul_lt_mul_of_pos_right h1 hmQ
        _ = x * m + m := by ring
        _ = ((j * n : ℕ) : ℚ) + (m : ℚ) := by
              rw [hx, div_mul_cancel₀ _ (ne_of_gt hmQ)]
      have h3 : ⌈x⌉₊ * m < j * n + m := by exact_mod_cast h2
      calc ⌈x⌉₊ * m < j * n + m := h3
      _ ≤ j * n + n := Nat.add_le_add_left hmn _
      _ = (j + 1) * n := by ring
    rw [bucket]
    have hge : j ≤ ⌈x⌉₊ * m / n := by
      rw [Nat.le_div_iff_mul_le hn]
      exact hle
    have hlt2 : ⌈x⌉₊ * m / n < j + 1 := by
      rw [Nat.div_lt_iff_lt_mul hn]
      exact hlt
    exact le_antisymm (Nat.lt_succ_iff.mp hlt2) hge

theorem bucketSet_nonempty (m n j : ℕ) (hm : 0 < m) (hmn : m ≤ n) (hj : j < m) :
    (bucketSet m n j).Nonempty := by
  obtain ⟨i, hi, hb⟩ := bucket_surj m n j hm hmn hj
  exact ⟨i, by simp [bucketSet, bucketSetUpTo, Finset.mem_filter, Finset.mem_range, hi, hb]⟩

theorem not_mem_bucketSetUpTo (m n k j : ℕ) : k ∉ bucketSetUpTo m n k j := by
  simp [bucketSetUpTo, Finset.mem_filter, Finset.mem_range]

theorem bucketSetUpTo_succ (m n k j : ℕ) :
    bucketSetUpTo m n (k + 1) j =
      if bucket m n k = j then insert k (bucketSetUpTo m n k j)
      else bucketSetUpTo m n k j := by
  rw [bucketSetUpTo, Finset.range_succ, Finset.filter_insert]
  rfl

theorem sumUpTo_succ (data : List ℚ) (m n k j : ℕ) :
    sumUpTo data m n (k + 1) j =
      if bucket m n k = j then |data.getD k 0| + sumUpTo data m n k j
      else sumUpTo data m n k j := by
  rw [sumUpTo, bucketSetUpTo_succ]
  by_cases h : bucket m n k = j
  · rw [if_pos h, if_pos h, Finset.sum_insert (not_mem_bucketSetUpTo m n k j)]
    rfl
  · rw [if_neg h, if_neg h]
    rfl

theorem peakUpTo_succ (data : List ℚ) (m n k j : ℕ) :
    peakUpTo data m n (k + 1) j =
      if bucket m n k = j then max |data.getD k 0| (peakUpTo data m n k j)
      else peakUpTo data m n k j := by
  rw [peakUpTo, bucketSetUpTo_succ]
  by_cases h : bucket m n k = j
  · rw [if_pos h, if_pos h, Finset.fold_insert (not_mem_bucketSetUpTo m n k j)]
    rfl
  · rw [if_neg h, if_neg h]
    rfl

theorem cntUpTo_succ (m n k j : ℕ) :
    cntUpTo m n (k + 1) j =
      if bucket m n k = j then cntUpTo m n k j + 1
      else cntUpTo m n k j := by
  rw [cntUpTo, bucketSetUpTo_succ]
  by_cases h : bucket m n k = j
  · rw [if_pos h, if_pos h, Finset.card_insert_of_not_mem (not_mem_bucketSetUpTo m n k j)]
    rfl
  · rw [if_neg h, if_neg h]
    rfl

theorem aggUpTo_zero (data : List ℚ) (m n j : ℕ) :
    sumUpTo data m n 0 j = 0 ∧ peakUpTo data m n 0 j = 0 ∧ cntUpTo m n 0 j = 0 := by
  refine ⟨?_, ?_, ?_⟩ <;>
    simp [sumUpTo, peakUpTo, cntUpTo, bucketSetUpTo]

theorem replicate_zero_eq_listOf (m : ℕ) :
    List.replicate m (JVal.num 0) = listOf m (fun _ => 0) := by
  unfold listOf
  apply List.ext_get?
  intro i
  rcases lt_or_ge i m with hi | hi
  · rw [List.get?_map, List.get?_range hi]
    rw [List.get?_eq_getElem?, List.getElem?_replicate]
    simp [hi]
  · rw [List.get?_eq_none.mpr (by simpa using hi),
      List.get?_eq_none.mpr (by simpa using hi)]

theorem fold_max_le_elem (s : Finset ℕ) (f : ℕ → ℚ) (i : ℕ) (hi : i ∈ s) :
    f i ≤ s.fold max 0 f :=
  (Finset.le_fold_max _).mpr (Or.inr ⟨i, hi, le_refl _⟩)

theorem fold_max_cases (s : Finset ℕ) (f : ℕ → ℚ) :
    s.fold max 0 f = 0 ∨ ∃ i ∈ s, s.fold max 0 f = f i := by
  induction s using Finset.induction_on with
  | empty =>
    left
    exact Finset.fold_empty
  | insert h ih =>
    rw [Finset.fold_insert h]
    rcases max_choice (f _) (Finset.fold max 0 f _) with hc | hc
    · right
      exact ⟨_, Finset.mem_insert_self _ _, hc⟩
    · rw [hc]
      rcases ih with h0 | ⟨i, hi, hfi⟩
      · left
        exact h0
      · right
        exact ⟨i, Finset.mem_insert_of_mem hi, hfi⟩

theorem fold_max_attained (s : Finset ℕ) (f : ℕ → ℚ) (h0 : ∀ i ∈ s, 0 ≤ f i)
    (hs : s.Nonempty) : ∃ i ∈ s, s.fold max 0 f = f i := by
  rcases fold_max_cases s f with h | h
  · obtain ⟨i0, hi0⟩ := hs
    refine ⟨i0, hi0, ?_⟩
    have hle : f i0 ≤ 0 := h ▸ fold_max_le_elem s f i0 hi0
    rw [h]
    exact (le_antisymm hle (h0 i0 hi0)).symm
  · exact h

theorem dsLoop_eq_avg (data : List ℚ) (m : ℕ) (hm : 0 < m) (k : ℕ)
    (hk : k ≤ data.length) :
    dsLoop false data m data.length k =
      (listOf m (fun j => sumUpTo data m data.length k j),
       listOf m (fun j => (cntUpTo m data.length k j : ℚ))) := by
  induction k with
  | zero =>
    rw [dsLoop, replicate_zero_eq_listOf]
    refine congrArg₂ Prod.mk ?_ ?_
    · exact listOf_congr m _ _ (fun j _ => by
        rcases aggUpTo_zero data m data.length j with ⟨h1, _, _⟩
        simp [h1])
    · exact listOf_congr m _ _ (fun j _ => by
        rcases aggUpTo_zero data m data.length j with ⟨_, _, h3⟩
        simp [h3])
  | succ k ih =>
    have hkl : k < data.length := hk
    have hk' : k ≤ data.length := le_of_lt hkl
    have hn : 0 < data.length := lt_of_le_of_lt (Nat.zero_le k) hkl
    have hb : bucket m data.length k < m := bucket_lt m data.length k hm hkl
    rw [dsLoop, ih hk']
    simp only [dsStep, Bool.false_eq_true, if_false]
    rw [idx_eq m data.length k hn, dget_nat data k hkl]
    simp only [jsGetV, jsSetV, jsIdx_natCast, jabs_num]
    rw [jsGet_listOf m _ hb, jsGet_listOf m _ hb, jadd_num, jadd_num,
      jsSet_listOf m _ hb, jsSet_listOf m _ hb]
    refine congrArg₂ Prod.mk ?_ ?_
    · refine listOf_congr m _ _ (fun j _ => ?_)
      rw [sumUpTo_succ]
      rcases eq_or_ne j (bucket m data.length k) with rfl | hne
      · rw [if_pos rfl, if_pos rfl, add_comm]
      · rw [if_neg hne, if_neg (fun h => hne h.symm)]
    · refine listOf_congr m _ _ (fun j _ => ?_)
      rw [cntUpTo_succ]
      rcases eq_or_ne j (bucket m data.length k) with rfl | hne
      · rw [if_pos rfl, if_pos rfl]
        push_cast
        ring
      · rw [if_neg hne, if_neg (fun h => hne h.symm)]

theorem dsLoop_eq_peak (data : List ℚ) (m : ℕ) (hm : 0 < m) (k : ℕ)
    (hk : k ≤ data.length) :
    dsLoop true data m data.length k =
      (listOf m (fun j => peakUpTo data m data.length k j),
       listOf m (fun j => (cntUpTo m data.length k j : ℚ))) := by
  induction k with
  | zero =>
    rw [dsLoop, replicate_zero_eq_listOf]
    refine congrArg₂ Prod.mk ?_ ?_
    · exact listOf_congr m _ _ (fun j _ => by
        rcases aggUpTo_zero data m data.length j with ⟨_, h2, _⟩
        simp [h2])
    · exact listOf_congr m _ _ (fun j _ => by
        rcases aggUpTo_zero data m data.length j with ⟨_, _, h3⟩
        simp [h3])
  | succ k ih =>
    have hkl : k < data.length := hk
    have hk' : k ≤ data.length := le_of_lt hkl
    have hn : 0 < data.length := lt_of_le_of_lt (Nat.zero_le k) hkl
    have hb : bucket m data.length k < m := bucket_lt m data.length k hm hkl
    rw [dsLoop, ih hk']
    simp only [dsStep, if_true]
    rw [idx_eq m data.length k hn, dget_nat data k hkl]
    simp only [jsGetV, jsSetV, jsIdx_natCast, jabs_num]
    rw [jsGet_listOf m _ hb, jsGet_listOf m _ hb, jmax_num, jadd_num,
      jsSet_listOf m _ hb, jsSet_listOf m _ hb]
    refine congrArg₂ Prod.mk ?_ ?_
    · refine listOf_congr m _ _ (fun j _ => ?_)
      rw [peakUpTo_succ]
      rcases eq_or_ne j (bucket m data.length k) with rfl | hne
      · rw [if_pos rfl, if_pos rfl, max_comm]
      · rw [if_neg hne, if_neg (fun h => hne h.symm)]
    · refine listOf_congr m _ _ (fun j _ => ?_)
      rw [cntUpTo_succ]
      rcases eq_or_ne j (bucket m data.length k) with rfl | hne
      · rw [if_pos rfl, if_pos rfl]
        push_cast
        ring
      · rw [if_neg hne, if_neg (fun h => hne h.symm)]

theorem cntUpTo_pos (m n j : ℕ) (hm : 0 < m) (hmn : m ≤ n) (hj : j < m) :
    0 < cntUpTo m n n j :=
  Finset.card_pos.mpr (bucketSet_nonempty m n j hm hmn hj)

theorem normalizeCompute_peak (data : List ℚ) (m : ℕ) (hm : 0 < m)
    (hmn : m ≤ data.length) :
    normalizeCompute data m true =
      listOf m (fun j => peakUpTo data m data.length data.length j) := by
  simp only [normalizeCompute]
  rw [if_pos hmn, dsLoop_eq_peak data m hm data.length (le_refl _)]
  simp

theorem normalizeCompute_avg (data : List ℚ) (m : ℕ) (hm : 0 < m)
    (hmn : m ≤ data.length) :
    normalizeCompute data m false =
      listOf m (fun j => sumUpTo data m data.length data.length j /
        (cntUpTo m data.length data.length j : ℚ)) := by
  simp only [normalizeCompute]
  rw [if_pos hmn, dsLoop_eq_avg data m hm data.length (le_refl _)]
  simp only [Bool.false_eq_true, if_false]
  rw [listOf_length]
  show (List.range m).map _ = (List.range m).map _
  apply List.map_congr_left
  intro i hi
  have hi' : i < m := List.mem_range.mp hi
  have hcpos : 0 < cntUpTo m data.length data.length i :=
    cntUpTo_pos m data.length i hm hmn hi'
  have hc : ((cntUpTo m data.length data.length i : ℕ) : ℚ) ≠ 0 :=
    Nat.cast_ne_zero.mpr (Nat.pos_iff_ne_zero.mp hcpos)
  rw [jsGet_listOf m _ hi', jsGet_listOf m _ hi', jdiv_num _ _ hc]

theorem normalizeCompute_up (data : List ℚ) (m : ℕ) (pk : Bool)
    (hnm : data.length < m) :
    normalizeCompute data m pk = (List.range m).map (upsampleVal data data.length m) := by
  simp only [normalizeCompute]
  rw [if_neg (not_le.mpr hnm)]


theorem dget_int (data : List ℚ) (z : ℤ) (hz : 0 ≤ z) (hlt : z.toNat < data.length) :
    dget data (.num (z : ℚ)) = .num (data.getD z.toNat 0) := by
  have h : data[z.toNat]? = some (data.get ⟨z.toNat, hlt⟩) := by
    rw [← List.get?_eq_getElem?, List.get?_eq_get hlt]
  have h2 : data.getD z.toNat 0 = data.get ⟨z.toNat, hlt⟩ := List.getD_eq_get _ _ hlt
  rw [dget, jsIdx_intCast z hz, h2]
  simp [h]

theorem upsampleVal_eq (data : List ℚ) (m i : ℕ) (hn : 0 < data.length)
    (hnm : data.length < m) (hi : i < m) :
    upsampleVal data data.length m i =
      .num (data.getD (⌊(i : ℚ) * ((data.length : ℚ) - 1) / ((m : ℚ) - 1)⌋).toNat 0 *
          (1 - ((i : ℚ) * ((data.length : ℚ) - 1) / ((m : ℚ) - 1) -
            ⌊(i : ℚ) * ((data.length : ℚ) - 1) / ((m : ℚ) - 1)⌋)) +
        data.getD (⌈(i : ℚ) * ((data.length : ℚ) - 1) / ((m : ℚ) - 1)⌉).toNat 0 *
          ((i : ℚ) * ((data.length : ℚ) - 1) / ((m : ℚ) - 1) -
            ⌊(i : ℚ) * ((data.length : ℚ) - 1) / ((m : ℚ) - 1)⌋)) := by
  have hm2 : 2 ≤ m := lt_of_le_of_lt hn hnm
  set n := data.length with hn'
  set pos : ℚ := (i : ℚ) * ((n : ℚ) - 1) / ((m : ℚ) - 1) with hpos
  have hmQ : (0 : ℚ) < (m : ℚ) - 1 := by
    have h2Q : (2 : ℚ) ≤ (m : ℚ) := by exact_mod_cast hm2
    linarith
  have hnQ : (1 : ℚ) ≤ (n : ℚ) := by exact_mod_cast hn
  have hpos0 : 0 ≤ pos := by
    rw [hpos]
    have h1 : (0 : ℚ) ≤ (i : ℚ) := Nat.cast_nonneg i
    have h2 : (0 : ℚ) ≤ (n : ℚ) - 1 := by linarith
    positivity
  have hposle : pos ≤ (n : ℚ) - 1 := by
    rw [hpos, div_le_iff₀ hmQ]
    have hiQ : (i : ℚ) ≤ (m : ℚ) - 1 := by
      have h3 : (i : ℚ) + 1 ≤ (m : ℚ) := by exact_mod_cast hi
      linarith
    nlinarith
  have hceil : ⌈pos⌉ ≤ (n : ℤ) - 1 := by
    have h1 : ((n : ℚ) - 1) = (((n : ℤ) - 1 : ℤ) : ℚ) := by push_cast; ring
    have h2 : ⌈pos⌉ ≤ ⌈(((n : ℤ) - 1 : ℤ) : ℚ)⌉ := Int.ceil_le_ceil (h1 ▸ hposle)
    rwa [Int.ceil_intCast] at h2
  have hfloor0 : 0 ≤ ⌊pos⌋ := Int.floor_nonneg.mpr hpos0
  have hceil0 : 0 ≤ ⌈pos⌉ := Int.ceil_nonneg hpos0
  have hfloorle : ⌊pos⌋ ≤ (n : ℤ) - 1 := le_trans (Int.floor_le_ceil pos) hceil
  have hnZ : (0 : ℤ) < (n : ℤ) := by exact_mod_cast hn
  have hflt : ⌊pos⌋.toNat < n := by omega
  have hclt : ⌈pos⌉.toNat < n := by omega
  have hdenom : ((m : ℚ) - 1) ≠ 0 := ne_of_gt hmQ
  simp only [upsampleVal]
  rw [jdiv_num _ _ hdenom, ← hpos, jfloor_num, jceil_num, jsub_num]
  have hge : jge (.num ((⌈pos⌉ : ℤ) : ℚ)) ((n : ℕ) : ℚ) = false := by
    rw [jge_num]
    apply decide_eq_false
    intro hcon
    have hcQ : ((⌈pos⌉ : ℤ) : ℚ) ≤ ((n : ℤ) : ℚ) - 1 := by exact_mod_cast hceil
    have hnn : ((n : ℤ) : ℚ) = ((n : ℕ) : ℚ) := by push_cast; rfl
    rw [hnn] at hcQ
    linarith
  rw [hge]
  simp only [Bool.false_eq_true, if_false]
  rw [dget_int data ⌊pos⌋ hfloor0 (by rw [← hn'] at *; exact hflt),
    dget_int data ⌈pos⌉ hceil0 (by rw [← hn'] at *; exact hclt)]
  rw [jsub_num, jmul_num, jmul_num, jadd_num]

theorem range_map_get? {α : Type} (m : ℕ) (f : ℕ → α) {i : ℕ} (hi : i < m) :
    ((List.range m).map f).get? i = some (f i) := by
  rw [List.get?_map, List.get?_range hi]
  rfl

theorem dget_nil (v : JVal) : dget [] v = .undefined := by
  unfold dget
  cases h : jsIdx v with
  | none => rfl
  | some i => rfl

theorem jmul_undef_left (b : JVal) : jmul .undefined b = .nan := by
  unfold jmul
  cases h : b.coerce <;> rfl

theorem bucket_self (n i : ℕ) (hn : 0 < n) : bucket n n i = i := by
  rw [bucket]
  exact Nat.mul_div_cancel i hn

theorem bucketSet_self (n j : ℕ) (hj : j < n) : bucketSet n n j = {j} := by
  have hn : 0 < n := lt_of_le_of_lt (Nat.zero_le j) hj
  apply Finset.ext
  intro i
  simp only [bucketSet, bucketSetUpTo, Finset.mem_filter, Finset.mem_range,
    Finset.mem_singleton]
  constructor
  · rintro ⟨hi, hb⟩
    rw [bucket_self n i hn] at hb
    exact hb
  · rintro rfl
    exact ⟨hj, bucket_self n i hn⟩

theorem listOf_eq_map_abs (data : List ℚ) :
    listOf data.length (fun j => |data.getD j 0|) =
      data.map (fun q => .num |q|) := by
  apply List.ext_get?
  intro i
  rcases lt_or_ge i data.length with hi | hi
  · rw [listOf_get? _ _ hi, List.get?_map, List.get?_eq_get hi,
      List.getD_eq_get _ _ hi]
    rfl
  · rw [listOf_get?_ge _ _ hi, List.get?_eq_none.mpr (by simpa using hi)]

theorem dsLoop_m0 (pk : Bool) (data : List ℚ) (hn : 0 < data.length) (k : ℕ)
    (hk1 : 1 ≤ k) (hk : k ≤ data.length) :
    dsLoop pk data 0 data.length k = ([JVal.nan], [JVal.nan]) := by
  induction k with
  | zero => omega
  | succ k ih =>
    have hnQ : ((data.length : ℕ) : ℚ) ≠ 0 := by
      exact_mod_cast Nat.pos_iff_ne_zero.mp hn
    have hidx : jfloor (jmul (.num (k : ℚ))
        (jdiv (.num ((0 : ℕ) : ℚ)) (.num ((data.length : ℕ) : ℚ)))) =
        .num 0 := by
      rw [jdiv_num _ _ hnQ, jmul_num, jfloor_num]
      norm_num
    rcases Nat.eq_or_lt_of_le hk1 with h1 | h1
    · -- k + 1 = 1: first iteration acts on the empty initial arrays
      have hk0 : k = 0 := by omega
      subst hk0
      rw [dsLoop, dsLoop]
      simp only [dsStep, List.replicate]
      rw [hidx]
      have hz : jsIdx (.num 0) = some 0 := by decide
      have hd : dget data (.num 0) = .num (data.getD 0 0) := by
        have h0 : ((0 : ℕ) : ℚ) = (0 : ℚ) := by norm_num
        have := dget_nat data 0 hn
        rwa [h0] at this
      cases pk <;>
        simp [jsGetV, jsSetV, hz, hd, jsGet, jsSet, jmax, jadd, jabs, JVal.coerce]
    · -- k ≥ 1: the arrays are already [NaN] and stay [NaN]
      have hk' : k ≤ data.length := by omega
      have ihk := ih (by omega) hk'
      rw [dsLoop, ihk]
      simp only [dsStep]
      rw [hidx]
      have hz : jsIdx (.num 0) = some 0 := by decide
      cases pk <;>
        cases hdg : dget data (.num (k : ℚ)) <;>
          simp [jsGetV, jsSetV, hz, jsGet, jsSet, jmax, jadd, jabs, JVal.coerce]

/-- C1: the specification demands that `normalize` fail with an
`InvalidArgument` error for `m <= 0` and for an empty input buffer.  The
code performs no such validation: it silently returns malformed arrays
instead — `[NaN]` (length 1) for a non-empty buffer with `m = 0`, the
empty array for an empty buffer with `m = 0`, and an array of
`undefined` / `NaN` entries for an empty buffer with `m = 3`.  This
theorem evaluates the code at those failing inputs, witnessing the
divergence between the code and the specified error-handling design. -/
theorem c1_no_invalid_argument_failure :
    normalizeCompute [1] 0 false = [JVal.nan] ∧
    normalizeCompute [1] 0 true = [JVal.nan] ∧
    normalizeCompute [] 0 false = [] ∧
    normalizeCompute [] 3 false = [JVal.undefined, JVal.undefined, JVal.nan] := by
  refine ⟨?_, ?_, ?_, ?_⟩
  · norm_num [normalizeCompute, dsLoop, dsStep, jsGetV, jsSetV, jsIdx, jsGet, jsSet, jadd,
      jsub, jmul, jdiv, jabs, jmax, jfloor, jceil, jge, dget, JVal.coerce, List.set, max_def,
      abs, Int.toNat, List.range_succ]
  · norm_num [normalizeCompute, dsLoop, dsStep, jsGetV, jsSetV, jsIdx, jsGet, jsSet, jadd,
      jsub, jmul, jdiv, jabs, jmax, jfloor, jceil, jge, dget, JVal.coerce, List.set, max_def,
      abs, Int.toNat, List.range_succ]
  · norm_num [normalizeCompute, dsLoop]
  · norm_num [normalizeCompute, upsampleVal, jsGetV, jsSetV, jsIdx, jsGet, jsSet, jadd, jsub,
      jmul, jdiv, jabs, jmax, jfloor, jceil, jge, dget, JVal.coerce, List.set, max_def, abs,
      Int.toNat, List.range_succ, Int.ceil_neg]

/-- C2: for a buffer of length `n >= 1` and `1 <= m <= n`, the
average-mode output has length exactly `m`; every bucket of the mapping
`bucket(i) = floor(i * m / n)` is non-empty (so the division by the
bucket count never divides by zero), a bucket with zero samples would
yield `0` (vacuously), and each output value is the mean of the absolute
values of the samples mapped to its bucket. -/
theorem c2_average_mode_mean (data : List ℚ) (m : ℕ) (hm : 1 ≤ m)
    (hmn : m ≤ data.length) :
    (normalizeCompute data m false).length = m ∧
    (∀ j < m, (bucketSet m data.length j).Nonempty ∧
      0 < (bucketSet m data.length j).card) ∧
    (∀ j < m, (bucketSet m data.length j).card = 0 →
      (normalizeCompute data m false).get? j = some (.num 0)) ∧
    (∀ j < m, (normalizeCompute data m false).get? j =
      some (.num ((∑ i ∈ bucketSet m data.length j, |data.getD i 0|) /
        ((bucketSet m data.length j).card : ℚ)))) := by
  have hm0 : 0 < m := hm
  rw [normalizeCompute_avg data m hm0 hmn]
  refine ⟨listOf_length _ _, ?_, ?_, ?_⟩
  · intro j hj
    have hne := bucketSet_nonempty m data.length j hm0 hmn hj
    exact ⟨hne, Finset.card_pos.mpr hne⟩
  · intro j hj hcard
    have hne := bucketSet_nonempty m data.length j hm0 hmn hj
    exact absurd hcard (Nat.pos_iff_ne_zero.mp (Finset.card_pos.mpr hne))
  · intro j hj
    rw [listOf_get? _ _ hj]
    rfl

/-- Witness for C2 at the concrete input `[0.1, -0.9, 0.3, 0.2]`,
`m = 2`: the hypotheses hold and the output has length 2. -/
theorem c2_average_mode_mean_witness :
    (1 ≤ 2 ∧ 2 ≤ ([1/10, -9/10, 3/10, 2/10] : List ℚ).length) ∧
    (normalizeCompute [1/10, -9/10, 3/10, 2/10] 2 false).length = 2 :=
  ⟨⟨by decide, by decide⟩,
    (c2_average_mode_mean [1/10, -9/10, 3/10, 2/10] 2 (by decide) (by decide)).1⟩

/-- C3: for a buffer of length `n >= 1` and `1 <= m <= n`, the peak-mode
output has length exactly `m`; every output value is a number `>= 0`
that bounds the absolute values of all samples in its bucket and is
attained by one of them (so it equals the bucket's maximum absolute
sample value; an empty bucket would keep the fill value 0, vacuous here
since every bucket is non-empty); and the concrete scenario
`[0.1, -0.9, 0.3, 0.2]` with `m = 2` yields `[0.9, 0.3]`. -/
theorem c3_peak_mode_max (data : List ℚ) (m : ℕ) (hm : 1 ≤ m)
    (hmn : m ≤ data.length) :
    (normalizeCompute data m true).length = m ∧
    (∀ j < m, ∃ val : ℚ,
      (normalizeCompute data m true).get? j = some (.num val) ∧
      0 ≤ val ∧
      (∀ i ∈ bucketSet m data.length j, |data.getD i 0| ≤ val) ∧
      (∃ i ∈ bucketSet m data.length j, val = |data.getD i 0|)) ∧
    normalizeCompute [1/10, -9/10, 3/10, 2/10] 2 true =
      [.num (9/10), .num (3/10)] := by
  have hm0 : 0 < m := hm
  rw [normalizeCompute_peak data m hm0 hmn]
  refine ⟨listOf_length _ _, ?_, ?_⟩
  · intro j hj
    refine ⟨peakUpTo data m data.length data.length j, listOf_get? _ _ hj, ?_, ?_, ?_⟩
    · exact (Finset.le_fold_max _).mpr (Or.inl le_rfl)
    · intro i hi
      exact fold_max_le_elem _ _ i hi
    · have hne := bucketSet_nonempty m data.length j hm0 hmn hj
      obtain ⟨i, hi, hfi⟩ :=
        fold_max_attained (bucketSet m data.length j) (fun i => |data.getD i 0|)
          (fun i _ => abs_nonneg _) hne
      exact ⟨i, hi, hfi⟩
  · norm_num [normalizeCompute, dsLoop, dsStep, jsGetV, jsSetV, jsIdx, jsGet, jsSet, jadd,
      jsub, jmul, jdiv, jabs, jmax, jfloor, jceil, jge, dget, JVal.coerce, List.set, max_def,
      abs, Int.toNat, List.range_succ]

/-- Witness for C3 at the concrete input `[0.1, -0.9, 0.3, 0.2]`,
`m = 2`: the hypotheses hold and the output has length 2. -/
theorem c3_peak_mode_max_witness :
    (1 ≤ 2 ∧ 2 ≤ ([1/10, -9/10, 3/10, 2/10] : List ℚ).length) ∧
    (normalizeCompute [1/10, -9/10, 3/10, 2/10] 2 true).length = 2 :=
  ⟨⟨by decide, by decide⟩,
    (c3_peak_mode_max [1/10, -9/10, 3/10, 2/10] 2 (by decide) (by decide)).1⟩

/-- Counterexample for C4: the claim says `drawSpeechVisual` obtains its
10-point peak summary with memoization enabled.  A memoization-enabled
resampler call on a fresh cache populates the entry for
`(buffer, 10, peak)` (second conjunct), but after `drawSpeechVisual` on
the concrete buffer `⟨0, [1]⟩` and the empty cache that entry is still
absent (first conjunct): the call site omits the `memoize` argument,
which defaults to `false`. -/
theorem c4_counterexample :
    (drawSpeechVisual mathEnv0 0 100 100 ⟨0, [1]⟩ .ai Cache.empty).2 0 10 true = none ∧
    (normalizeArray ⟨0, [1]⟩ 10 true true Cache.empty).2 0 10 true =
      some (normalizeCompute [1] 10 true) := by
  constructor
  · rfl
  · simp [normalizeArray, Cache.update, Cache.empty]

/-- C4 as amended: every invocation of `drawSpeechVisual` obtains a
10-point peak-mode summary of the buffer via the Resampler with
memoization disabled (the `memoize` argument is omitted at the call site
and defaults to `false`), so the cache state is left unchanged; the
summary always has exactly 10 points. -/
theorem c4_draw_uses_unmemoized_resampler (env : MathEnv) (now w h : ℚ)
    (buf : Buffer) (s : SpeakingState) (st : Cache) :
    (drawSpeechVisual env now w h buf s st).2 = st ∧
    normalizeArray buf 10 true false st = (normalizeCompute buf.data 10 true, st) ∧
    (normalizeCompute buf.data 10 true).length = 10 := by
  refine ⟨rfl, rfl, ?_⟩
  rcases le_or_lt 10 buf.data.length with h | h
  · rw [normalizeCompute_peak buf.data 10 (by norm_num) h]
    exact listOf_length _ _
  · rw [normalizeCompute_up buf.data 10 true h]
    simp

/-- C5: for a buffer of length `n >= 1` and a target length `m > n`, the
output has length exactly `m`; each slot `i` carries the linear
interpolation `buffer[low] * (1 - t) + buffer[high] * t` of the samples
around the fractional position `pos = i * (n - 1) / (m - 1)` with
`low = floor(pos)`, `high = ceil(pos)`, `t = pos - low`, clamped to the
last sample when `high >= n`; consequently slot 0 carries `buffer[0]`
and slot `m - 1` carries `buffer[n - 1]`; and the concrete scenario
`[0.0, 1.0]` with `m = 4` yields `[0, 1/3, 2/3, 1]`.  The result is the
same in both aggregation modes (upsampling ignores the mode). -/
theorem c5_upsampling_linear_interpolation (data : List ℚ) (m : ℕ) (pk : Bool)
    (hn : 1 ≤ data.length) (hm : data.length < m) :
    (normalizeCompute data m pk).length = m ∧
    (∀ i < m, (normalizeCompute data m pk).get? i =
      some (.num (
        if (data.length : ℤ) ≤ ⌈(i : ℚ) * ((data.length : ℚ) - 1) / ((m : ℚ) - 1)⌉ then
          data.getD (data.length - 1) 0
        else
          data.getD (⌊(i : ℚ) * ((data.length : ℚ) - 1) / ((m : ℚ) - 1)⌋).toNat 0 *
            (1 - ((i : ℚ) * ((data.length : ℚ) - 1) / ((m : ℚ) - 1) -
              ⌊(i : ℚ) * ((data.length : ℚ) - 1) / ((m : ℚ) - 1)⌋)) +
          data.getD (⌈(i : ℚ) * ((data.length : ℚ) - 1) / ((m : ℚ) - 1)⌉).toNat 0 *
            ((i : ℚ) * ((data.length : ℚ) - 1) / ((m : ℚ) - 1) -
              ⌊(i : ℚ) * ((data.length : ℚ) - 1) / ((m : ℚ) - 1)⌋)))) ∧
    (normalizeCompute data m pk).get? 0 = some (.num (data.getD 0 0)) ∧
    (normalizeCompute data m pk).get? (m - 1) =
      some (.num (data.getD (data.length - 1) 0)) ∧
    normalizeCompute [0, 1] 4 false = [.num 0, .num (1/3), .num (2/3), .num 1] := by
  have hn0 : 0 < data.length := hn
  have hm0 : 0 < m := lt_trans hn0 hm
  rw [normalizeCompute_up data m pk hm]
  have hmain : ∀ i < m, ((List.range m).map (upsampleVal data data.length m)).get? i =
      some (.num (
        if (data.length : ℤ) ≤ ⌈(i : ℚ) * ((data.length : ℚ) - 1) / ((m : ℚ) - 1)⌉ then
          data.getD (data.length - 1) 0
        else
          data.getD (⌊(i : ℚ) * ((data.length : ℚ) - 1) / ((m : ℚ) - 1)⌋).toNat 0 *
            (1 - ((i : ℚ) * ((data.length : ℚ) - 1) / ((m : ℚ) - 1) -
              ⌊(i : ℚ) * ((data.length : ℚ) - 1) / ((m : ℚ) - 1)⌋)) +
          data.getD (⌈(i : ℚ) * ((data.length : ℚ) - 1) / ((m : ℚ) - 1)⌉).toNat 0 *
            ((i : ℚ) * ((data.length : ℚ) - 1) / ((m : ℚ) - 1) -
              ⌊(i : ℚ) * ((data.length : ℚ) - 1) / ((m : ℚ) - 1)⌋))) := by
    intro i hi
    rw [range_map_get? m _ hi, upsampleVal_eq data m i hn0 hm hi]
    congr 1
    congr 1
    rw [if_neg]
    intro hcon
    -- the clamp condition `high >= n` never holds for `i < m`
    have hm2 : 2 ≤ m := lt_of_le_of_lt hn0 hm
    have hmQ : (0 : ℚ) < (m : ℚ) - 1 := by
      have h2Q : (2 : ℚ) ≤ (m : ℚ) := by exact_mod_cast hm2
      linarith
    have hnQ : (1 : ℚ) ≤ (data.length : ℚ) := by exact_mod_cast hn0
    have hposle : (i : ℚ) * ((data.length : ℚ) - 1) / ((m : ℚ) - 1) ≤
        (data.length : ℚ) - 1 := by
      rw [div_le_iff₀ hmQ]
      have hiQ : (i : ℚ) ≤ (m : ℚ) - 1 := by
        have h3 : (i : ℚ) + 1 ≤ (m : ℚ) := by exact_mod_cast hi
        linarith
      nlinarith
    have hceil : ⌈(i : ℚ) * ((data.length : ℚ) - 1) / ((m : ℚ) - 1)⌉ ≤
        (data.length : ℤ) - 1 := by
      have h1 : ((data.length : ℚ) - 1) = (((data.length : ℤ) - 1 : ℤ) : ℚ) := by
        push_cast
        ring
      have h2 : ⌈(i : ℚ) * ((data.length : ℚ) - 1) / ((m : ℚ) - 1)⌉ ≤
          ⌈(((data.length : ℤ) - 1 : ℤ) : ℚ)⌉ := by
        apply Int.ceil_le_ceil
        rw [← h1]
        exact hposle
      rwa [Int.ceil_intCast] at h2
    have hcontr : (data.length : ℤ) ≤ (data.length : ℤ) - 1 := le_trans hcon hceil
    omega
  refine ⟨by rw [List.length_map, List.length_range], hmain, ?_, ?_, ?_⟩
  · -- slot 0 carries buffer[0]
    have h0 := hmain 0 hm0
    rw [h0]
    have hz : ((0 : ℕ) : ℚ) * ((data.length : ℚ) - 1) / ((m : ℚ) - 1) = 0 := by
      norm_num
    rw [hz]
    norm_num
    intro h
    subst h
    simp at hn0
  · -- slot m - 1 carries buffer[n - 1]
    have hlt : m - 1 < m := by omega
    have h1 := hmain (m - 1) hlt
    rw [h1]
    have hm2 : 2 ≤ m := lt_of_le_of_lt hn0 hm
    have hmQ : ((m : ℚ) - 1) ≠ 0 := by
      have h2Q : (2 : ℚ) ≤ (m : ℚ) := by exact_mod_cast hm2
      intro hc
      linarith
    have hcast : ((m - 1 : ℕ) : ℚ) = (m : ℚ) - 1 := by
      have h2 : 1 ≤ m := by omega
      push_cast [h2]
      ring
    have hz : ((m - 1 : ℕ) : ℚ) * ((data.length : ℚ) - 1) / ((m : ℚ) - 1) =
        (data.length : ℚ) - 1 := by
      rw [hcast, mul_comm, mul_div_assoc, div_self hmQ, mul_one]
    rw [hz]
    have hnint : ((data.length : ℚ) - 1) = (((data.length : ℤ) - 1 : ℤ) : ℚ) := by
      push_cast
      ring
    rw [hnint, Int.ceil_intCast, Int.floor_intCast]
    have hnz : (0 : ℤ) ≤ (data.length : ℤ) - 1 := by
      have := hn0
      omega
    rw [if_neg (by omega)]
    have htn : ((data.length : ℤ) - 1).toNat = data.length - 1 := by omega
    rw [htn]
    congr 1
    congr 1
    ring
  · -- concrete scenario [0, 1] with m = 4
    rw [normalizeCompute_up ([0, 1] : List ℚ) 4 false (by norm_num)]
    rw [show List.range 4 = [0, 1, 2, 3] from rfl]
    simp only [List.map_cons, List.map_nil]
    rw [upsampleVal_eq _ 4 0 (by norm_num) (by norm_num) (by norm_num),
      upsampleVal_eq _ 4 1 (by norm_num) (by norm_num) (by norm_num),
      upsampleVal_eq _ 4 2 (by norm_num) (by norm_num) (by norm_num),
      upsampleVal_eq _ 4 3 (by norm_num) (by norm_num) (by norm_num)]
    norm_num [show (⌈(1:ℚ)/3⌉ : ℤ) = 1 from by rw [Int.ceil_eq_iff]; norm_num,
      show (⌈(2:ℚ)/3⌉ : ℤ) = 1 from by rw [Int.ceil_eq_iff]; norm_num,
      show (⌊(1:ℚ)/3⌋ : ℤ) = 0 from by norm_num,
      show (⌊(2:ℚ)/3⌋ : ℤ) = 0 from by norm_num,
      Int.toNat_one, Int.toNat_zero]

/-- Witness for C5 at the concrete input `[0.0, 1.0]`, `m = 4`: the
hypotheses hold and slot 0 of the output carries `buffer[0] = 0`. -/
theorem c5_upsampling_linear_interpolation_witness :
    (1 ≤ ([0, 1] : List ℚ).length ∧ ([0, 1] : List ℚ).length < 4) ∧
    (normalizeCompute [0, 1] 4 false).get? 0 = some (.num 0) :=
  ⟨⟨by decide, by decide⟩,
    (c5_upsampling_linear_interpolation [0, 1] 4 false (by decide) (by decide)).2.2.1⟩

/-- C6: with memoization enabled, a second call with the same buffer
instance and the same `(m, mode)` pair returns the identical array and
cache; the cache entry for the triple holds exactly the returned array;
once an entry is populated, every later memoized call with that triple
returns that same array instance; and a call with a different `m` or a
different mode finds no entry under its own key after the first call (if
it had none before) and computes its result afresh rather than reusing
the prior one. -/
theorem c6_memoization_cache (buf : Buffer) (m : ℕ) (pk : Bool) (st : Cache) :
    ((normalizeArray buf m pk true ((normalizeArray buf m pk true st).2)).1 =
        (normalizeArray buf m pk true st).1 ∧
      (normalizeArray buf m pk true ((normalizeArray buf m pk true st).2)).2 =
        (normalizeArray buf m pk true st).2) ∧
    ((normalizeArray buf m pk true st).2 buf.id m pk =
      some ((normalizeArray buf m pk true st).1)) ∧
    (∀ st2 : Cache, ∀ r : List JVal, st2 buf.id m pk = some r →
      (normalizeArray buf m pk true st2).1 = r) ∧
    (∀ m2 : ℕ, ∀ p2 : Bool, m2 ≠ m ∨ p2 ≠ pk →
      st buf.id m2 p2 = none →
      (normalizeArray buf m pk true st).2 buf.id m2 p2 = none ∧
      (normalizeArray buf m2 p2 true ((normalizeArray buf m pk true st).2)).1 =
        normalizeCompute buf.data m2 p2) := by
  have hkey : ∀ m2 p2, (m2 ≠ m ∨ p2 ≠ pk) →
      ¬(buf.id = buf.id ∧ m2 = m ∧ p2 = pk) := by
    rintro m2 p2 (h | h) ⟨_, h1, h2⟩
    · exact h h1
    · exact h h2
  cases h : st buf.id m pk with
  | some r =>
    refine ⟨?_, ?_, ?_, ?_⟩
    · simp [normalizeArray, h]
    · simp [normalizeArray, h]
    · intro st2 r2 h2
      simp [normalizeArray, h2]
    · intro m2 p2 hne h2
      constructor
      · simp [normalizeArray, h, h2]
      · simp [normalizeArray, h, h2]
  | none =>
    refine ⟨?_, ?_, ?_, ?_⟩
    · simp [normalizeArray, h, Cache.update]
    · simp [normalizeArray, h, Cache.update]
    · intro st2 r2 h2
      simp [normalizeArray, h2]
    · intro m2 p2 hne h2
      have hupd : (st.update buf.id m pk (normalizeCompute buf.data m pk))
          buf.id m2 p2 = none := by
        rw [Cache.update, if_neg (hkey m2 p2 hne), h2]
      constructor
      · simp only [normalizeArray, h, if_true]
        exact hupd
      · simp [normalizeArray, h, hupd]

/-- Witness for C6: applying the theorem at the concrete buffer
`⟨0, [1]⟩` with `(m, mode) = (2, average)` on the empty cache, the
later call with the different target length 3 computes its result
afresh, discharging the inner hypotheses at `m2 = 3`, `p2 = average`. -/
theorem c6_memoization_cache_witness :
    (normalizeArray ⟨0, [1]⟩ 3 false true
        ((normalizeArray ⟨0, [1]⟩ 2 false true Cache.empty).2)).1 =
      normalizeCompute [1] 3 false :=
  ((c6_memoization_cache ⟨0, [1]⟩ 2 false Cache.empty).2.2.2 3 false
    (Or.inl (by decide)) rfl).2

/-- C7: for any buffer, downsampling with `m = n` (one sample per
bucket) reproduces the absolute values `abs(buffer[i])` pointwise, in
both aggregation modes — peak and average coincide there. -/
theorem c7_identity_downsample (data : List ℚ) (pk : Bool) :
    normalizeCompute data data.length pk = data.map (fun q => .num |q|) := by
  cases hd : data with
  | nil =>
    cases pk <;> rfl
  | cons q0 rest =>
    rw [← hd]
    have hn : 0 < data.length := by
      rw [hd]
      simp
    have habs : ∀ j < data.length,
        (if pk then peakUpTo data data.length data.length data.length j
         else sumUpTo data data.length data.length data.length j /
           (cntUpTo data.length data.length data.length j : ℚ)) =
        |data.getD j 0| := by
      intro j hj
      have hset : bucketSetUpTo data.length data.length data.length j = {j} :=
        bucketSet_self data.length j hj
      cases pk
      case false =>
        rw [if_neg (by simp)]
        rw [sumUpTo, cntUpTo, hset]
        simp
      case true =>
        rw [if_pos rfl]
        rw [peakUpTo, hset, Finset.fold_singleton]
        exact max_eq_left (abs_nonneg _)
    rw [← listOf_eq_map_abs data]
    cases pk
    case false =>
      rw [normalizeCompute_avg data data.length hn le_rfl]
      refine listOf_congr _ _ _ (fun j hj => ?_)
      have h := habs j hj
      rw [if_neg (by simp)] at h
      exact h
    case true =>
      rw [normalizeCompute_peak data data.length hn le_rfl]
      refine listOf_congr _ _ _ (fun j hj => ?_)
      have h := habs j hj
      rw [if_pos rfl] at h
      exact h

/-- C8: the sequence of drawing operations emitted by `drawSpeechVisual`
is identical for any two sample buffers and any two speaking-state tags
(and any cache states), given the same surface dimensions and the same
wall-clock timestamp: the painted geometry depends only on the
dimensions, the timestamp and the ambient math functions. -/
theorem c8_visual_ignores_audio_and_state (env : MathEnv) (now w h : ℚ)
    (buf1 buf2 : Buffer) (s1 s2 : SpeakingState) (st1 st2 : Cache) :
    (drawSpeechVisual env now w h buf1 s1 st1).1 =
      (drawSpeechVisual env now w h buf2 s2 st2).1 := rfl

/-- Every operation of the vertex loop is a path vertex (`moveTo` or
`lineTo`), never a `beginPath`, `closePath` or `fill`. -/
theorem vertexOps_all_vertex (env : MathEnv) (now cx cy : ℚ) :
    ∀ o ∈ vertexOps env now cx cy, isVertexOp o = true ∧
      o ≠ CanvasOp.beginPath ∧ o ≠ CanvasOp.closePath ∧ o ≠ CanvasOp.fill := by
  intro o ho
  rw [vertexOps] at ho
  rw [List.mem_map] at ho
  obtain ⟨i, _, rfl⟩ := ho
  by_cases hi : i = 0 <;> simp [hi, isVertexOp]

/-- The vertex loop emits exactly `numberOfPoints + 1` operations. -/
theorem vertexOps_length (env : MathEnv) (now cx cy : ℚ) :
    (vertexOps env now cx cy).length = numberOfPoints + 1 := by
  rw [vertexOps]
  rw [List.length_map]
  exact List.length_range _

/-- C9: every call of `drawSpeechVisual` emits the trace that first
clears the entire drawable surface (`clearRect` over the full width and
height, the head of the trace), then paints exactly one closed filled
path — one `beginPath`, one `closePath`, one `fill` — whose outline is
built from `numberOfPoints + 1` vertex operations walking evenly spaced
angular steps (the full trace equality, first conjunct, exhibits the
walk via `vertexOps`, which revisits the start angle at step
`numberOfPoints`); the call returns no value beyond the trace and leaves
the cache state — the only other reachable state — unchanged. -/
theorem c9_clear_then_one_closed_path (env : MathEnv) (now w h : ℚ)
    (buf : Buffer) (s : SpeakingState) (st : Cache) :
    (drawSpeechVisual env now w h buf s st).1 =
      CanvasOp.clearRect 0 0 w h :: CanvasOp.beginPath ::
        (vertexOps env now (w / 2) (h / 2) ++
          [CanvasOp.closePath, CanvasOp.setFillStyle "black", CanvasOp.fill]) ∧
    ((drawSpeechVisual env now w h buf s st).1).head? =
      some (CanvasOp.clearRect 0 0 w h) ∧
    ((drawSpeechVisual env now w h buf s st).1).countP
      (fun o => decide (o = CanvasOp.beginPath)) = 1 ∧
    ((drawSpeechVisual env now w h buf s st).1).countP
      (fun o => decide (o = CanvasOp.closePath)) = 1 ∧
    ((drawSpeechVisual env now w h buf s st).1).countP
      (fun o => decide (o = CanvasOp.fill)) = 1 ∧
    ((drawSpeechVisual env now w h buf s st).1).countP isVertexOp =
      numberOfPoints + 1 ∧
    (drawSpeechVisual env now w h buf s st).2 = st := by
  have htrace : (drawSpeechVisual env now w h buf s st).1 =
      CanvasOp.clearRect 0 0 w h :: CanvasOp.beginPath ::
        (vertexOps env now (w / 2) (h / 2) ++
          [CanvasOp.closePath, CanvasOp.setFillStyle "black", CanvasOp.fill]) := rfl
  have hv := vertexOps_all_vertex env now (w / 2) (h / 2)
  refine ⟨htrace, by rw [htrace]; rfl, ?_, ?_, ?_, ?_, rfl⟩
  · rw [htrace]
    simp only [List.countP_cons, List.countP_append]
    rw [List.countP_eq_zero.mpr (fun o ho => by simp [(hv o ho).2.1])]
    simp [List.countP_cons]
  · rw [htrace]
    simp only [List.countP_cons, List.countP_append]
    rw [List.countP_eq_zero.mpr (fun o ho => by simp [(hv o ho).2.2.1])]
    simp [List.countP_cons]
  · rw [htrace]
    simp only [List.countP_cons, List.countP_append]
    rw [List.countP_eq_zero.mpr (fun o ho => by simp [(hv o ho).2.2.2])]
    simp [List.countP_cons]
  · rw [htrace]
    simp only [List.countP_cons, List.countP_append]
    rw [List.countP_eq_length.mpr (fun o ho => (hv o ho).1)]
    rw [vertexOps_length]
    simp [List.countP_cons, isVertexOp]

/-- C10: `normalizeArray`'s computation is total on every buffer and
every natural `m`, returning an array without raising an error even on
the inputs the specification calls invalid: for any non-empty buffer
with `m = 0` it returns the length-1 array `[NaN]` (not an empty array),
and for the empty buffer with `m >= 1` it returns an array of length `m`
whose entries are all `NaN` or `undefined`. -/
theorem c10_total_no_validation :
    (∀ (data : List ℚ) (pk : Bool), data ≠ [] →
      normalizeCompute data 0 pk = [JVal.nan]) ∧
    (∀ (m : ℕ) (pk : Bool), 1 ≤ m →
      (normalizeCompute [] m pk).length = m ∧
      ∀ v ∈ normalizeCompute [] m pk, v = JVal.nan ∨ v = JVal.undefined) := by
  constructor
  · intro data pk hne
    have hn : 0 < data.length := List.length_pos.mpr hne
    simp only [normalizeCompute]
    rw [if_pos (Nat.zero_le _)]
    rw [dsLoop_m0 pk data hn data.length hn le_rfl]
    cases pk
    case true => rfl
    case false => rfl
  · intro m pk hm
    simp only [normalizeCompute, List.length_nil]
    rw [if_neg (by omega)]
    constructor
    · rw [List.length_map, List.length_range]
    · intro v hv
      rw [List.mem_map] at hv
      obtain ⟨i, _, rfl⟩ := hv
      simp only [upsampleVal]
      split
      · right
        exact dget_nil _
      · left
        rw [dget_nil, dget_nil, jmul_undef_left, jmul_undef_left]
        rfl

/-- Witness for C10 at the concrete inputs `([1.0], m = 0)` and
`([], m = 2)`. -/
theorem c10_total_no_validation_witness :
    normalizeCompute [1] 0 true = [JVal.nan] ∧
    (normalizeCompute [] 2 false).length = 2 :=
  ⟨c10_total_no_validation.1 [1] true (by decide),
    (c10_total_no_validation.2 2 false (by decide)).1⟩
